import Mathlib

/-!
Verification of the PoW nonce-search engine (Hashishdotfun/PoW-Miners, crate
`gpu-miner`).  The Rust sources are shallowly embedded: bytes are `Nat`s below
256, machine integers are `Nat` with explicit reduction modulo `2^w` where the
source can overflow, fallible or optional results are `Option`, and the
concurrent CPU search is a small-step state machine driven by an explicit
schedule of worker indices.
-/

set_option maxRecDepth 100000

namespace PoW

/-! ## Byte and 32-bit word helpers -/

/-- Truncation to a 32-bit word, the implicit wrap of `uint` arithmetic. -/
def w32 (x : Nat) : Nat := x % 4294967296

/-- `ROTR(x, n)` from the OpenCL kernel: rotate a 32-bit word right by `n`. -/
def rotr (n x : Nat) : Nat := w32 (Nat.lor (Nat.shiftRight x n) (Nat.shiftLeft x (32 - n)))

/-- Serialize `v` as `k` bytes little-endian (`to_le_bytes`). -/
def toLeBytes (k v : Nat) : List Nat :=
  match k with
  | 0 => []
  | k + 1 => v % 256 :: toLeBytes k (v / 256)

/-- Serialize `v` as `k` bytes big-endian. -/
def toBeBytes (k v : Nat) : List Nat :=
  match k with
  | 0 => []
  | k + 1 => toBeBytes k (v / 256) ++ [v % 256]

/-- Read a little-endian byte list as an integer (`u128::from_le_bytes`). -/
def fromLeBytes : List Nat → Nat
  | [] => 0
  | b :: bs => b + 256 * fromLeBytes bs

/-! ## SHA-256

The compression function below is the standard SHA-256 transform; it is at the
same time the embedding of the `sha256_transform` routine spelled out in the
OpenCL kernel string in `gpu.rs` (same constants, same round structure) and the
semantics of the `sha2` crate used by `pow.rs` and `cpu.rs`. -/

/-- `CH(x, y, z)`. -/
def chF (x y z : Nat) : Nat := Nat.xor (Nat.land x y) (Nat.land (Nat.xor x 4294967295) z)

/-- `MAJ(x, y, z)`. -/
def majF (x y z : Nat) : Nat :=
  Nat.xor (Nat.land x y) (Nat.xor (Nat.land x z) (Nat.land y z))

/-- `EP0(x)`. -/
def ep0 (x : Nat) : Nat := Nat.xor (rotr 2 x) (Nat.xor (rotr 13 x) (rotr 22 x))

/-- `EP1(x)`. -/
def ep1 (x : Nat) : Nat := Nat.xor (rotr 6 x) (Nat.xor (rotr 11 x) (rotr 25 x))

/-- `SIG0(x)`. -/
def sig0 (x : Nat) : Nat := Nat.xor (rotr 7 x) (Nat.xor (rotr 18 x) (Nat.shiftRight x 3))

/-- `SIG1(x)`. -/
def sig1 (x : Nat) : Nat := Nat.xor (rotr 17 x) (Nat.xor (rotr 19 x) (Nat.shiftRight x 10))

/-- The 64 round constants `K`. -/
def K : List Nat :=
  [1116352408, 1899447441, 3049323471, 3921009573,
   961987163, 1508970993, 2453635748, 2870763221,
   3624381080, 310598401, 607225278, 1426881987,
   1925078388, 2162078206, 2614888103, 3248222580,
   3835390401, 4022224774, 264347078, 604807628,
   770255983, 1249150122, 1555081692, 1996064986,
   2554220882, 2821834349, 2952996808, 3210313671,
   3336571891, 3584528711, 113926993, 338241895,
   666307205, 773529912, 1294757372, 1396182291,
   1695183700, 1986661051, 2177026350, 2456956037,
   2730485921, 2820302411, 3259730800, 3345764771,
   3516065817, 3600352804, 4094571909, 275423344,
   430227734, 506948616, 659060556, 883997877,
   958139571, 1322822218, 1537002063, 1747873779,
   1955562222, 2024104815, 2227730452, 2361852424,
   2428436474, 2756734187, 3204031479, 3329325298]

/-- The eight 32-bit working variables / hash state words. -/
structure S8 where
  a : Nat
  b : Nat
  c : Nat
  d : Nat
  e : Nat
  f : Nat
  g : Nat
  h : Nat
deriving DecidableEq, Repr

/-- Initial SHA-256 hash state. -/
def sha256Init : S8 :=
  ⟨1779033703, 3144134277, 1013904242, 2773480762,
   1359893119, 2600822924, 528734635, 1541459225⟩

/-- One main-loop round of the compression function, fed `K[i]` and `w[i]`. -/
def shaRound (s : S8) (k w : Nat) : S8 :=
  let t1 := w32 (s.h + ep1 s.e + chF s.e s.f s.g + k + w)
  let t2 := w32 (ep0 s.a + majF s.a s.b s.c)
  ⟨w32 (t1 + t2), s.a, s.b, s.c, w32 (s.d + t1), s.e, s.f, s.g⟩

/-- Message-schedule extension, kept in reverse order so the recent words
`w[i-2], w[i-7], w[i-15], w[i-16]` sit at positions 1, 6, 14, 15. -/
def scheduleRev : Nat → List Nat → List Nat
  | 0, acc => acc
  | n + 1, acc =>
      scheduleRev n
        (w32 (sig1 (acc.getD 1 0) + acc.getD 6 0 + sig0 (acc.getD 14 0) + acc.getD 15 0) :: acc)

/-- Expand 16 message words to the 64-word schedule `w`. -/
def msgSchedule (ws16 : List Nat) : List Nat := (scheduleRev 48 ws16.reverse).reverse

/-- `sha256_transform`: compress one 16-word block into the state. -/
def sha256_transform (st : S8) (ws16 : List Nat) : S8 :=
  let r := (K.zip (msgSchedule ws16)).foldl (fun s p => shaRound s p.1 p.2) st
  ⟨w32 (st.a + r.a), w32 (st.b + r.b), w32 (st.c + r.c), w32 (st.d + r.d),
   w32 (st.e + r.e), w32 (st.f + r.f), w32 (st.g + r.g), w32 (st.h + r.h)⟩

/-- Big-endian 32-bit word `i` of a byte list. -/
def beWord (l : List Nat) (i : Nat) : Nat :=
  l.getD (4 * i) 0 * 16777216 + l.getD (4 * i + 1) 0 * 65536 +
    l.getD (4 * i + 2) 0 * 256 + l.getD (4 * i + 3) 0

/-- The 16 big-endian words of one 64-byte block. -/
def blockWords (l : List Nat) : List Nat := (List.range 16).map (fun i => beWord l i)

/-- Split a byte list into 64-byte blocks (structural recursion on a fuel
bound so the definition reduces in the kernel). -/
def toBlocksAux : Nat → List Nat → List (List Nat)
  | 0, _ => []
  | _, [] => []
  | fuel + 1, a :: l => ((a :: l).take 64) :: toBlocksAux fuel ((a :: l).drop 64)

/-- Split a byte list into 64-byte blocks. -/
def toBlocks (l : List Nat) : List (List Nat) := toBlocksAux l.length l

/-- SHA-256 padding: `0x80`, zeros to 56 mod 64, then the 64-bit big-endian
bit length. -/
def padMessage (msg : List Nat) : List Nat :=
  msg ++ 128 :: (List.replicate ((119 - msg.length % 64) % 64) 0 ++ toBeBytes 8 (8 * msg.length))

/-- Serialize the final state as the 32-byte big-endian digest. -/
def stateToBytes (s : S8) : List Nat :=
  toBeBytes 4 s.a ++ toBeBytes 4 s.b ++ toBeBytes 4 s.c ++ toBeBytes 4 s.d ++
    toBeBytes 4 s.e ++ toBeBytes 4 s.f ++ toBeBytes 4 s.g ++ toBeBytes 4 s.h

/-- Full SHA-256 of a byte list: the semantics of `Sha256::digest` from the
`sha2` crate. -/
def sha256 (msg : List Nat) : List Nat :=
  stateToBytes
    ((toBlocks (padMessage msg)).foldl (fun st blk => sha256_transform st (blockWords blk))
      sha256Init)

/-! ## `pow.rs` -/

/-- `Sha256::update`: the incremental hasher accumulates its input bytes. -/
def sha256Update (buf data : List Nat) : List Nat := buf ++ data

/-- `pow::compute_hash`: SHA-256 of challenge, miner pubkey, 16-byte LE nonce
and 8-byte LE block number fed to an incremental hasher in that order. -/
def compute_hash (challenge miner_pubkey : List Nat) (nonce block_number : Nat) : List Nat :=
  sha256
    (sha256Update
      (sha256Update (sha256Update (sha256Update [] challenge) miner_pubkey)
        (toLeBytes 16 nonce))
      (toLeBytes 8 block_number))

/-- `pow::verify_nonce`: the first 16 digest bytes, read little-endian, must be
below `target`. -/
def verify_nonce (challenge miner_pubkey : List Nat) (nonce block_number target : Nat) : Bool :=
  decide (fromLeBytes ((compute_hash challenge miner_pubkey nonce block_number).take 16) < target)

/-! ## `miner.rs`: `SimpleCpuMiner` -/

/-- The `while nonce < max_nonce` loop of `SimpleCpuMiner::mine`, recursing on
the number `remaining = max_nonce - nonce` of candidates left. -/
def simpleMineAux (challenge miner_pubkey : List Nat) (block_number target : Nat) :
    Nat → Nat → Option Nat
  | _, 0 => none
  | nonce, remaining + 1 =>
      if verify_nonce challenge miner_pubkey nonce block_number target then some nonce
      else simpleMineAux challenge miner_pubkey block_number target (nonce + 1) remaining

/-- `SimpleCpuMiner::mine`: scan nonces `0, 1, …` up to `max_nonce`. -/
def simpleCpuMiner_mine (challenge miner_pubkey : List Nat)
    (block_number target max_nonce : Nat) : Option Nat :=
  simpleMineAux challenge miner_pubkey block_number target 0 max_nonce

/-! ## `miner.rs`: `CpuMiner` work partition -/

/-- `let chunk_size = max_nonce / (self.threads as u128)`. -/
def chunk_size (max_nonce threads : Nat) : Nat := max_nonce / threads

/-- `let start = thread_id as u128 * chunk_size`. -/
def workerStart (max_nonce threads thread_id : Nat) : Nat :=
  thread_id * chunk_size max_nonce threads

/-- `let end = if thread_id == self.threads - 1 { max_nonce } else { (thread_id + 1) * chunk_size }`. -/
def workerEnd (max_nonce threads thread_id : Nat) : Nat :=
  if thread_id = threads - 1 then max_nonce else (thread_id + 1) * chunk_size max_nonce threads

/-! ## `miner.rs`: `CpuMiner::mine` as a scheduled state machine

Each rayon worker of `CpuMiner::mine` runs
`while nonce < end { if found.load() { break }; if verify_nonce(..) { found.store(true); *result.lock() = nonce; break }; nonce += 1 }`.
The shared state is the `found` flag and the mutex-protected `result` slot; a
worker's visible actions are (1) the loop test plus `found` load, (2) the
`verify_nonce` evaluation plus, when it succeeds, the `found.store(true)`, and
(3) the locked write into `result`.  An explicit schedule (a list of worker
indices) picks which worker performs its next action, which covers every
interleaving of these shared accesses.  The validity predicate is a parameter
so the machine can be instantiated with `verify_nonce` at any inputs; `writes`
and `hashes` instrument the number of result-slot writes and of hash
evaluations. -/

inductive WPc where
  | check : WPc
  | test : WPc
  | write (v : Nat) : WPc
  | done : WPc
deriving DecidableEq, Repr

structure Worker where
  nonce : Nat
  endN : Nat
  pc : WPc
deriving DecidableEq, Repr

structure MineState where
  found : Bool
  result : Nat
  writes : Nat
  hashes : Nat
  workers : List Worker
deriving DecidableEq, Repr

/-- One action of one worker. -/
def stepWorker (valid : Nat → Bool) (s : MineState) (w : Worker) : MineState × Worker :=
  match w.pc with
  | .check =>
      if w.nonce < w.endN then
        if s.found then (s, { w with pc := .done })
        else (s, { w with pc := .test })
      else (s, { w with pc := .done })
  | .test =>
      if valid w.nonce then
        ({ s with found := true, hashes := s.hashes + 1 }, { w with pc := .write w.nonce })
      else
        ({ s with hashes := s.hashes + 1 }, { w with nonce := w.nonce + 1, pc := .check })
  | .write v => ({ s with result := v, writes := s.writes + 1 }, { w with pc := .done })
  | .done => (s, w)

/-- Let worker `i` perform its next action (no-op on an out-of-range index). -/
def stepState (valid : Nat → Bool) (s : MineState) (i : Nat) : MineState :=
  match s.workers[i]? with
  | none => s
  | some w =>
      let p := stepWorker valid s w
      { p.1 with workers := p.1.workers.set i p.2 }

/-- Run the machine under a given interleaving of worker actions. -/
def runSched (valid : Nat → Bool) : List Nat → MineState → MineState
  | [], s => s
  | i :: rest, s => runSched valid rest (stepState valid s i)

/-- Worker `thread_id`, positioned at the start of its sub-range. -/
def initWorker (max_nonce threads thread_id : Nat) : Worker :=
  ⟨workerStart max_nonce threads thread_id, workerEnd max_nonce threads thread_id, .check⟩

/-- State at the `into_par_iter` fork of `CpuMiner::mine`. -/
def initState (max_nonce threads : Nat) : MineState :=
  ⟨false, 0, 0, 0, (List.range threads).map (initWorker max_nonce threads)⟩

/-- All workers have returned from their closure (rayon joins before
`CpuMiner::mine` reads `found`). -/
def allDone (s : MineState) : Bool := s.workers.all (fun w => decide (w.pc = WPc.done))

/-- `if found.load() { Some(*result.lock()) } else { None }`. -/
def mineOutcome (s : MineState) : Option Nat := if s.found then some s.result else none

/-- `CpuMiner::mine` under a given schedule, before the final read-out. -/
def cpuMiner_run (valid : Nat → Bool) (threads max_nonce : Nat) (sched : List Nat) : MineState :=
  runSched valid sched (initState max_nonce threads)

/-! ## `cpu.rs`: the batched CPU mining loop -/

/-- `copy_from_slice` into `buf[off .. off + data.length]`. -/
def setSlice (buf : List Nat) (off : Nat) (data : List Nat) : List Nat :=
  buf.take off ++ data ++ buf.drop (off + data.length)

/-- The 48-byte message buffer assembled by `mine_batch`:
`message[..32] = challenge`, `message[40..48] = block_number.to_le_bytes()`,
then per candidate `message[32..40] = nonce.to_le_bytes()` (`nonce: u64`). -/
def mineBatchMessage (challenge : List Nat) (block_number nonce : Nat) : List Nat :=
  setSlice (setSlice (setSlice (List.replicate 48 0) 0 challenge)
    40 (toLeBytes 8 block_number)) 32 (toLeBytes 8 nonce)

/-- `is_valid_hash` from `cpu.rs`: first 16 bytes as little-endian `u128`,
strictly below `target`. -/
def is_valid_hash (hash : List Nat) (target : Nat) : Bool :=
  decide (fromLeBytes (hash.take 16) < target)

/-- The digest `mine_batch` computes for one candidate nonce. -/
def mineBatchDigest (challenge : List Nat) (block_number nonce : Nat) : List Nat :=
  sha256 (mineBatchMessage challenge block_number nonce)

/-- The `for nonce in start..end` loop of `mine_batch`, with the cancellation
flag frozen at `running` (the flag is monotone: once the controller stores
`false` it stays `false`, so the post-cancellation suffix of a batch sees a
constant value).  The second component counts hash evaluations. -/
def mineBatchAux (challenge : List Nat) (block_number target : Nat) (running : Bool) :
    Nat → Nat → Option (Nat × List Nat) × Nat
  | _, 0 => (none, 0)
  | nonce, remaining + 1 =>
      if nonce % 1000 = 0 && !running then (none, 0)
      else
        if is_valid_hash (mineBatchDigest challenge block_number nonce) target then
          (some (nonce, mineBatchDigest challenge block_number nonce), 1)
        else
          ((mineBatchAux challenge block_number target running (nonce + 1) remaining).1,
            (mineBatchAux challenge block_number target running (nonce + 1) remaining).2 + 1)

/-- `mine_batch(challenge, block_number, target, start, end, running)`. -/
def mine_batch (challenge : List Nat) (block_number target start e : Nat) (running : Bool) :
    Option (Nat × List Nat) × Nat :=
  mineBatchAux challenge block_number target running start (e - start)

/-- `BATCH_SIZE`. -/
def BATCH_SIZE : Nat := 10000

/-- One round of the `cpu::mine` loop body: the per-thread batch ranges
`(batch_start + i*BATCH_SIZE, .. + BATCH_SIZE)` (with `u64` wrapping), searched
with `find_map_any` (modelled as the first batch, in index order, whose
`mine_batch` finds a result — one of the legitimate outcomes of
`find_map_any`). -/
def cpuRound (challenge : List Nat) (block_number target threads batch_start : Nat)
    (running : Bool) : Option (Nat × List Nat) :=
  (List.range threads).findSome? fun i =>
    let s := (batch_start + i * BATCH_SIZE) % 2 ^ 64
    let e := (s + BATCH_SIZE) % 2 ^ 64
    (mine_batch challenge block_number target s e running).1

/-- The `while running.load()` loop of `cpu::mine`.  `running k` is the value
the `k`-th poll of the CancellationFlag observes; the value passed into the
round's batches is the same observation.  The second component counts the
rounds (batch launches) performed; `fuel` bounds the unrolling of the
otherwise unbounded loop. -/
def cpuMineLoop (challenge : List Nat) (block_number target threads : Nat)
    (running : Nat → Bool) : Nat → Nat → Nat → Option (Nat × List Nat) × Nat
  | _, _, 0 => (none, 0)
  | batch_start, k, fuel + 1 =>
      if running k then
        match cpuRound challenge block_number target threads batch_start (running k) with
        | some r => (some r, 1)
        | none =>
            let p := cpuMineLoop challenge block_number target threads running
              ((batch_start + BATCH_SIZE * threads) % 2 ^ 64) (k + 1) fuel
            (p.1, p.2 + 1)
      else (none, 0)

/-! ## `gpu.rs`: the OpenCL kernel -/

/-- The 16-word block `sha256_40bytes` assembles from its 40 input bytes:
ten big-endian data words, then `0x80000000`, four zero words, and the bit
length `320`. -/
def kernelBlockWords (data : List Nat) : List Nat :=
  (List.range 10).map (fun i => beWord data i) ++
    [2147483648] ++ List.replicate 4 0 ++ [320]

/-- `sha256_40bytes` from the OpenCL kernel: a single hand-padded
transform over the 40-byte message. -/
def sha256_40bytes (data : List Nat) : List Nat :=
  stateToBytes (sha256_transform sha256Init (kernelBlockWords data))

/-- The 40-byte device message: `challenge` (32 bytes) followed by the lane's
nonce in little-endian (`message[32 + i] = (nonce >> (i * 8)) & 0xff`). -/
def kernelMessage (challenge : List Nat) (nonce : Nat) : List Nat :=
  challenge ++ toLeBytes 8 nonce

/-- The digest one device lane computes for its candidate nonce. -/
def kernelDigest (challenge : List Nat) (nonce : Nat) : List Nat :=
  sha256_40bytes (kernelMessage challenge nonce)

/-! ## `gpu.rs`: one kernel launch as a scheduled state machine

Each lane runs: early-return if `*found` is already set; compute the digest of
`start_nonce + gid`; if valid, `atomic_cmpxchg(found, 0, 1)` and only on
success write `result_nonce` and `result_hash`.  The visible shared actions
are (1) the `found` read plus the pure digest computation, and (2) the CAS
together with the winner's result write (losing lanes touch nothing). -/

inductive LanePc where
  | start : LanePc
  | cas : LanePc
  | done : LanePc
deriving DecidableEq, Repr

structure Lane where
  gid : Nat
  pc : LanePc
deriving DecidableEq, Repr

structure LaunchState where
  found : Nat
  result_nonce : Nat
  writes : Nat
  lanes : List Lane
deriving DecidableEq, Repr

/-- One action of one device lane. -/
def laneStep (valid : Nat → Bool) (start_nonce : Nat) (s : LaunchState) (l : Lane) :
    LaunchState × Lane :=
  match l.pc with
  | .start =>
      if s.found ≠ 0 then (s, { l with pc := .done })
      else if valid (start_nonce + l.gid) then (s, { l with pc := .cas })
      else (s, { l with pc := .done })
  | .cas =>
      if s.found = 0 then
        ({ s with found := 1, result_nonce := start_nonce + l.gid, writes := s.writes + 1 },
          { l with pc := .done })
      else (s, { l with pc := .done })
  | .done => (s, l)

/-- Let lane `i` perform its next action. -/
def launchStep (valid : Nat → Bool) (start_nonce : Nat) (s : LaunchState) (i : Nat) :
    LaunchState :=
  match s.lanes[i]? with
  | none => s
  | some l =>
      let p := laneStep valid start_nonce s l
      { p.1 with lanes := p.1.lanes.set i p.2 }

/-- Run one kernel launch under a given interleaving of lane actions. -/
def runLaunch (valid : Nat → Bool) (start_nonce : Nat) : List Nat → LaunchState → LaunchState
  | [], s => s
  | i :: rest, s => runLaunch valid start_nonce rest (launchStep valid start_nonce s i)

/-- Launch state as set up by the host: `found` buffer zeroed, one lane per
global id. -/
def initLaunch (numLanes : Nat) : LaunchState :=
  ⟨0, 0, 0, (List.range numLanes).map (fun g => ⟨g, .start⟩)⟩

/-- The host-side `while running.load()` loop of `gpu::mine`: poll the flag,
launch a batch (`launch k` is the outcome the `k`-th kernel launch reports),
and either return the result or advance.  The second component counts kernel
launches. -/
def gpuMineLoop (launch : Nat → Option (Nat × List Nat)) (running : Nat → Bool) :
    Nat → Nat → Option (Nat × List Nat) × Nat
  | _, 0 => (none, 0)
  | k, fuel + 1 =>
      if running k then
        match launch k with
        | some r => (some r, 1)
        | none =>
            let p := gpuMineLoop launch running (k + 1) fuel
            (p.1, p.2 + 1)
      else (none, 0)

/-! ## `opencl_miner.rs` and `cuda_miner.rs` (feature-disabled path) -/

/-- `OpenClMiner::mine`: the body is literally `None`. -/
def openClMiner_mine (_challenge _miner_pubkey : List Nat)
    (_block_number _target _max_nonce : Nat) : Option Nat :=
  none

/-- `CudaMiner::mine` when the `cuda` feature is not compiled: literally
`None`. -/
def cudaMiner_mine_disabled (_challenge _miner_pubkey : List Nat)
    (_block_number _target _max_nonce : Nat) : Option Nat :=
  none

/-! ## Common concrete test inputs -/

/-- The 32-byte all-zero challenge used by the crate's own tests. -/
def testChallenge : List Nat := List.replicate 32 0

/-- The 32-byte all-one miner pubkey used by the crate's own tests. -/
def testPubkey : List Nat := List.replicate 32 1

/-! ## The spec's Proof Function (§4.1), stated in the spec's own terms -/

/-- The spec's `computeHash`: a single SHA-256 over the concatenation of the
32-byte challenge, the 32-byte identity, the nonce as 16 bytes little-endian
and the block number as 8 bytes little-endian. -/
def computeHash_spec (challenge miner_pubkey : List Nat) (nonce block_number : Nat) : List Nat :=
  sha256 (challenge ++ miner_pubkey ++ toLeBytes 16 nonce ++ toLeBytes 8 block_number)

/-- The spec's `isValid(hash, target)`: the first 16 digest bytes as a
little-endian 128-bit integer, strictly below `target`. -/
def isValid_spec (hash : List Nat) (target : Nat) : Bool :=
  decide (fromLeBytes (hash.take 16) < target)

/-! ## Helper lemmas -/

theorem length_toLeBytes (k : Nat) : ∀ v, (toLeBytes k v).length = k := by
  induction k with
  | zero => intro v; rfl
  | succ k ih => intro v; simp [toLeBytes, ih]

theorem verify_nonce_lt (challenge miner_pubkey : List Nat) (nonce block_number target : Nat) :
    verify_nonce challenge miner_pubkey nonce block_number target = true ↔
      fromLeBytes ((compute_hash challenge miner_pubkey nonce block_number).take 16) < target := by
  simp [verify_nonce]

theorem verify_nonce_target_zero (challenge miner_pubkey : List Nat) (nonce block_number : Nat) :
    verify_nonce challenge miner_pubkey nonce block_number 0 = false := by
  simp [verify_nonce]

/-! ## C2: the Proof Function -/

/-- C2: `pow::compute_hash` equals SHA-256 of the 88-byte concatenation of the
32-byte challenge, the 32-byte identity, the 16-byte little-endian nonce and
the 8-byte little-endian block number, and `pow::verify_nonce` returns true
iff the first 16 bytes of that digest, read as a little-endian 128-bit
integer, are strictly below `target`. -/
theorem compute_hash_matches_spec (challenge miner_pubkey : List Nat)
    (nonce block_number target : Nat)
    (hc : challenge.length = 32) (hp : miner_pubkey.length = 32) :
    compute_hash challenge miner_pubkey nonce block_number =
      computeHash_spec challenge miner_pubkey nonce block_number ∧
    (challenge ++ miner_pubkey ++ toLeBytes 16 nonce ++ toLeBytes 8 block_number).length = 88 ∧
    (verify_nonce challenge miner_pubkey nonce block_number target = true ↔
      fromLeBytes ((computeHash_spec challenge miner_pubkey nonce block_number).take 16)
        < target) := by
  have hmsg : compute_hash challenge miner_pubkey nonce block_number =
      computeHash_spec challenge miner_pubkey nonce block_number := by
    simp [compute_hash, computeHash_spec, sha256Update, List.append_assoc]
  refine ⟨hmsg, ?_, ?_⟩
  · simp [hc, hp, length_toLeBytes]
  · rw [verify_nonce_lt, hmsg]

/-- Witness for C2 at the crate's own test vector. -/
theorem compute_hash_matches_spec_witness :
    (List.replicate 32 (0 : Nat)).length = 32 ∧ (List.replicate 32 (1 : Nat)).length = 32 ∧
    (compute_hash testChallenge testPubkey 12345 100 =
        computeHash_spec testChallenge testPubkey 12345 100 ∧
      (testChallenge ++ testPubkey ++ toLeBytes 16 12345 ++ toLeBytes 8 100).length = 88 ∧
      (verify_nonce testChallenge testPubkey 12345 100 5 = true ↔
        fromLeBytes ((computeHash_spec testChallenge testPubkey 12345 100).take 16) < 5)) :=
  ⟨by decide, by decide,
    compute_hash_matches_spec testChallenge testPubkey 12345 100 5 (by decide) (by decide)⟩

/-! ## C8: target monotonicity -/

/-- C8: for a fixed (challenge, identity, blockNumber), a nonce in
`[0, maxNonce)` valid under target `t₁` is also valid under any larger target
`t₂`. -/
theorem verify_nonce_target_monotone (challenge miner_pubkey : List Nat)
    (nonce block_number max_nonce t1 t2 : Nat)
    (ht : t1 < t2) (_hn : nonce < max_nonce)
    (h1 : verify_nonce challenge miner_pubkey nonce block_number t1 = true) :
    verify_nonce challenge miner_pubkey nonce block_number t2 = true := by
  rw [verify_nonce_lt] at h1 ⊢
  omega

/-- Witness for C8: nonce 0 of the test vector is valid under a target one
above its hash value, hence also under the next target up. -/
theorem verify_nonce_target_monotone_witness :
    verify_nonce testChallenge testPubkey 0 100 33341996897051675756895738429795324109 = true :=
  verify_nonce_target_monotone testChallenge testPubkey 0 100 1
    33341996897051675756895738429795324108 33341996897051675756895738429795324109
    (by decide) (by decide) (by decide)

/-! ## C9: `SimpleCpuMiner` finds the least valid nonce -/

theorem simpleMineAux_eq_some (challenge miner_pubkey : List Nat) (block_number target : Nat) :
    ∀ remaining nonce r,
      simpleMineAux challenge miner_pubkey block_number target nonce remaining = some r ↔
        (nonce ≤ r ∧ r < nonce + remaining ∧
          verify_nonce challenge miner_pubkey r block_number target = true ∧
          ∀ m, nonce ≤ m → m < r →
            verify_nonce challenge miner_pubkey m block_number target = false) := by
  intro remaining
  induction remaining with
  | zero =>
      intro nonce r
      simp only [simpleMineAux]
      constructor
      · intro h; cases h
      · rintro ⟨h1, h2, -⟩; omega
  | succ k ih =>
      intro nonce r
      simp only [simpleMineAux]
      by_cases hv : verify_nonce challenge miner_pubkey nonce block_number target = true
      · rw [if_pos hv]
        constructor
        · rintro ⟨rfl⟩
          exact ⟨Nat.le_refl _, by omega, hv, fun m h1 h2 => absurd h2 (by omega)⟩
        · rintro ⟨h1, h2, h3, h4⟩
          by_cases hr : r = nonce
          · simp [hr]
          · have := h4 nonce (Nat.le_refl _) (by omega)
            rw [hv] at this; cases this
      · rw [if_neg hv]
        rw [ih (nonce + 1) r]
        constructor
        · rintro ⟨h1, h2, h3, h4⟩
          refine ⟨by omega, by omega, h3, fun m hm1 hm2 => ?_⟩
          by_cases hm : m = nonce
          · subst hm; exact Bool.eq_false_iff.mpr hv
          · exact h4 m (by omega) hm2
        · rintro ⟨h1, h2, h3, h4⟩
          have hrn : r ≠ nonce := fun h => hv (h ▸ h3)
          exact ⟨by omega, by omega, h3, fun m hm1 hm2 => h4 m (by omega) hm2⟩

theorem simpleMineAux_eq_none (challenge miner_pubkey : List Nat) (block_number target : Nat) :
    ∀ remaining nonce,
      simpleMineAux challenge miner_pubkey block_number target nonce remaining = none ↔
        ∀ m, nonce ≤ m → m < nonce + remaining →
          verify_nonce challenge miner_pubkey m block_number target = false := by
  intro remaining
  induction remaining with
  | zero =>
      intro nonce
      constructor
      · intro _ m h1 h2; omega
      · intro _; rfl
  | succ k ih =>
      intro nonce
      simp only [simpleMineAux]
      by_cases hv : verify_nonce challenge miner_pubkey nonce block_number target = true
      · rw [if_pos hv]
        constructor
        · intro h; cases h
        · intro h
          have := h nonce (Nat.le_refl _) (by omega)
          rw [hv] at this; cases this
      · rw [if_neg hv]
        rw [ih (nonce + 1)]
        constructor
        · intro h m hm1 hm2
          by_cases hm : m = nonce
          · subst hm; exact Bool.eq_false_iff.mpr hv
          · exact h m (by omega) (by omega)
        · intro h m hm1 hm2
          exact h m (by omega) (by omega)

/-- C9: `SimpleCpuMiner::mine` returns `some n` iff `n` is the least valid
nonce in `[0, maxNonce)`, and `none` iff no nonce in `[0, maxNonce)` is
valid. -/
theorem simpleCpuMiner_mine_least (challenge miner_pubkey : List Nat)
    (block_number target max_nonce n : Nat) :
    (simpleCpuMiner_mine challenge miner_pubkey block_number target max_nonce = some n ↔
      (n < max_nonce ∧ verify_nonce challenge miner_pubkey n block_number target = true ∧
        ∀ m, m < n → verify_nonce challenge miner_pubkey m block_number target = false)) ∧
    (simpleCpuMiner_mine challenge miner_pubkey block_number target max_nonce = none ↔
      ∀ m, m < max_nonce →
        verify_nonce challenge miner_pubkey m block_number target = false) := by
  constructor
  · rw [simpleCpuMiner_mine, simpleMineAux_eq_some]
    constructor
    · rintro ⟨-, h2, h3, h4⟩
      exact ⟨by omega, h3, fun m hm => h4 m (Nat.zero_le _) hm⟩
    · rintro ⟨h1, h2, h3⟩
      exact ⟨Nat.zero_le _, by omega, h2, fun m _ hm => h3 m hm⟩
  · rw [simpleCpuMiner_mine, simpleMineAux_eq_none]
    constructor
    · intro h m hm; exact h m (Nat.zero_le _) (by omega)
    · intro h m _ hm; exact h m (by omega)

/-! ## C10: unimplemented accelerator backends -/

theorem simpleCpuMiner_mine_target_zero (challenge miner_pubkey : List Nat)
    (block_number max_nonce : Nat) :
    simpleCpuMiner_mine challenge miner_pubkey block_number 0 max_nonce = none := by
  rw [(simpleCpuMiner_mine_least challenge miner_pubkey block_number 0 max_nonce 0).2]
  intro m _
  exact verify_nonce_target_zero _ _ _ _

/-- C10: `OpenClMiner::mine` and the feature-disabled `CudaMiner::mine` return
`None` on every input, ignoring all their arguments, and the result is the
very same `None` a genuine exhaustion of `[0, maxNonce)` produces (here: the
sequential scan under the never-satisfiable target 0). -/
theorem unimplemented_backends_return_none (challenge miner_pubkey : List Nat)
    (block_number target max_nonce : Nat) (challenge' miner_pubkey' : List Nat)
    (block_number' target' max_nonce' : Nat) :
    openClMiner_mine challenge miner_pubkey block_number target max_nonce = none ∧
    cudaMiner_mine_disabled challenge miner_pubkey block_number target max_nonce = none ∧
    openClMiner_mine challenge miner_pubkey block_number target max_nonce =
      openClMiner_mine challenge' miner_pubkey' block_number' target' max_nonce' ∧
    openClMiner_mine challenge miner_pubkey block_number target max_nonce =
      simpleCpuMiner_mine challenge miner_pubkey block_number 0 max_nonce := by
  refine ⟨rfl, rfl, rfl, ?_⟩
  rw [simpleCpuMiner_mine_target_zero]
  rfl

/-! ## C4: partition of the nonce space by `CpuMiner` -/

theorem workerEnd_le (max_nonce threads i : Nat) (hi : i < threads) :
    workerEnd max_nonce threads i ≤ max_nonce := by
  rw [workerEnd]
  by_cases h : i = threads - 1
  · rw [if_pos h]
  · rw [if_neg h]
    calc (i + 1) * chunk_size max_nonce threads
        ≤ threads * chunk_size max_nonce threads :=
          Nat.mul_le_mul_right _ (by omega)
      _ = (max_nonce / threads) * threads := by rw [chunk_size, Nat.mul_comm]
      _ ≤ max_nonce := Nat.div_mul_le_self _ _

/-- C4: for `maxNonce > 0` and any thread count from 1 to `maxNonce`, the
sub-ranges `[i*chunk, (i+1)*chunk)` (the last worker ending at `maxNonce`)
computed by `CpuMiner::mine` are contiguous, pairwise non-overlapping, and
their union is exactly `[0, maxNonce)`. -/
theorem worker_ranges_partition (max_nonce threads : Nat)
    (h1 : 1 ≤ threads) (h2 : threads ≤ max_nonce) :
    (∀ i, i + 1 < threads →
      workerEnd max_nonce threads i = workerStart max_nonce threads (i + 1)) ∧
    (∀ i j, i < j → j < threads →
      workerEnd max_nonce threads i ≤ workerStart max_nonce threads j) ∧
    (∀ u, u < max_nonce ↔ ∃ i, i < threads ∧
      workerStart max_nonce threads i ≤ u ∧ u < workerEnd max_nonce threads i) := by
  have hc : 1 ≤ chunk_size max_nonce threads := by
    rw [chunk_size]
    exact (Nat.one_le_div_iff (by omega)).mpr h2
  refine ⟨?_, ?_, ?_⟩
  · intro i hi
    rw [workerEnd, if_neg (by omega), workerStart]
  · intro i j hij hj
    rw [workerEnd, if_neg (by omega), workerStart]
    exact Nat.mul_le_mul_right _ (by omega)
  · intro u
    constructor
    · intro hu
      by_cases hsplit : u < (threads - 1) * chunk_size max_nonce threads
      · refine ⟨u / chunk_size max_nonce threads, ?_, ?_, ?_⟩
        · have hlt : u / chunk_size max_nonce threads < threads - 1 :=
            Nat.div_lt_of_lt_mul (by rw [Nat.mul_comm] at hsplit; exact hsplit)
          omega
        · rw [workerStart]; exact Nat.div_mul_le_self _ _
        · have hlt : u / chunk_size max_nonce threads < threads - 1 :=
            Nat.div_lt_of_lt_mul (by rw [Nat.mul_comm] at hsplit; exact hsplit)
          rw [workerEnd, if_neg (by omega)]
          rw [Nat.add_mul, Nat.one_mul, Nat.mul_comm]
          have hdm := Nat.div_add_mod u (chunk_size max_nonce threads)
          have hm : u % chunk_size max_nonce threads < chunk_size max_nonce threads :=
            Nat.mod_lt u (by omega)
          omega
      · refine ⟨threads - 1, by omega, ?_, ?_⟩
        · rw [workerStart]; omega
        · rw [workerEnd, if_pos rfl]; exact hu
    · rintro ⟨i, hi, -, hend⟩
      exact Nat.lt_of_lt_of_le hend (workerEnd_le max_nonce threads i hi)

/-- Witness for C4 at `maxNonce = 5`, `threads = 2`. -/
theorem worker_ranges_partition_witness :
    1 ≤ 2 ∧ 2 ≤ 5 ∧
    ((∀ i, i + 1 < 2 → workerEnd 5 2 i = workerStart 5 2 (i + 1)) ∧
      (∀ i j, i < j → j < 2 → workerEnd 5 2 i ≤ workerStart 5 2 j) ∧
      (∀ u, u < 5 ↔ ∃ i, i < 2 ∧ workerStart 5 2 i ≤ u ∧ u < workerEnd 5 2 i)) :=
  ⟨by decide, by decide, worker_ranges_partition 5 2 (by decide) (by decide)⟩

/-! ## C6: cancellation latency -/

/-- After cancellation the `for` loop of `mine_batch` reaches a checkpoint
(`nonce % 1000 == 0`) and returns within fewer than 1000 further hash
evaluations: the count is bounded by the distance to the next multiple
of 1000. -/
theorem mineBatchAux_cancelled_bound (challenge : List Nat) (block_number target : Nat) :
    ∀ remaining nonce,
      (mineBatchAux challenge block_number target false nonce remaining).2 ≤
        (if nonce % 1000 = 0 then 0 else 1000 - nonce % 1000) := by
  intro remaining
  induction remaining with
  | zero => intro nonce; exact Nat.zero_le _
  | succ k ih =>
      intro nonce
      rw [mineBatchAux]
      by_cases h0 : nonce % 1000 = 0
      · rw [if_pos (by simp [h0])]
        exact Nat.zero_le _
      · rw [if_neg (by simp [h0]), if_neg h0]
        by_cases hv : is_valid_hash (mineBatchDigest challenge block_number nonce) target = true
        · rw [if_pos hv]; omega
        · rw [if_neg hv]
          have := ih (nonce + 1)
          by_cases h1 : (nonce + 1) % 1000 = 0
          · rw [if_pos h1] at this; simp only []; omega
          · rw [if_neg h1] at this; simp only []; omega

/-- C6: with the CancellationFlag observed false, a `cpu.rs` worker finishes
its current batch within at most 1000 further hash evaluations (in fact at
most 999), and both the `cpu::mine` batch loop and the `gpu::mine` launch loop
return at their next flag poll without starting any further round or kernel
launch — so at most the one in-flight batch/launch completes. -/
theorem cancellation_bound (challenge : List Nat)
    (block_number target start e threads batch_start k fuel : Nat)
    (running : Nat → Bool) (launch : Nat → Option (Nat × List Nat))
    (hk : running k = false) :
    (mine_batch challenge block_number target start e false).2 ≤ 999 ∧
    cpuMineLoop challenge block_number target threads running batch_start k fuel = (none, 0) ∧
    gpuMineLoop launch running k fuel = (none, 0) := by
  refine ⟨?_, ?_, ?_⟩
  · have h := mineBatchAux_cancelled_bound challenge block_number target (e - start) start
    rw [mine_batch]
    by_cases h0 : start % 1000 = 0
    · rw [if_pos h0] at h; omega
    · rw [if_neg h0] at h; omega
  · cases fuel with
    | zero => rfl
    | succ fuel => simp [cpuMineLoop, hk]
  · cases fuel with
    | zero => rfl
    | succ fuel => simp [gpuMineLoop, hk]

/-- Witness for C6 with the flag constantly false. -/
theorem cancellation_bound_witness :
    (fun _ : Nat => false) 0 = false ∧
    ((mine_batch testChallenge 100 5 0 3 false).2 ≤ 999 ∧
      cpuMineLoop testChallenge 100 5 2 (fun _ => false) 0 0 7 = (none, 0) ∧
      gpuMineLoop (fun _ => none) (fun _ => false) 0 7 = (none, 0)) :=
  ⟨rfl, cancellation_bound testChallenge 100 5 0 3 2 0 0 7 (fun _ => false) (fun _ => none) rfl⟩

/-! ## Invariants of the `CpuMiner` state machine (C3, C5, C7) -/

/-- Per-worker invariant: the sub-range never exceeds `max_nonce`; a worker
about to hash is inside its range; a worker about to write holds a valid
nonce below `max_nonce`. -/
def WorkerInv (valid : Nat → Bool) (max_nonce : Nat) (w : Worker) : Prop :=
  w.endN ≤ max_nonce ∧
  (w.pc = WPc.test → w.nonce < w.endN) ∧
  (∀ v, w.pc = WPc.write v → valid v = true ∧ v < max_nonce)

/-- Global invariant: all workers are in their invariant, any value already in
the result slot is a valid nonce below `max_nonce`, and a raised `found` flag
is backed by a completed or still-pending result write. -/
def StateInv (valid : Nat → Bool) (max_nonce : Nat) (s : MineState) : Prop :=
  (∀ w ∈ s.workers, WorkerInv valid max_nonce w) ∧
  (1 ≤ s.writes → valid s.result = true ∧ s.result < max_nonce) ∧
  (s.found = true → 1 ≤ s.writes ∨
    ∃ j : Nat, ∃ v : Nat, ∃ w : Worker, s.workers[j]? = some w ∧ w.pc = WPc.write v)

theorem stateInv_init (valid : Nat → Bool) (max_nonce threads : Nat) :
    StateInv valid max_nonce (initState max_nonce threads) := by
  refine ⟨?_, ?_, ?_⟩
  · intro w hw
    rw [initState] at hw
    simp only [List.mem_map, List.mem_range] at hw
    obtain ⟨i, hi, rfl⟩ := hw
    exact ⟨workerEnd_le max_nonce threads i hi, (fun h => by cases h), (fun v h => by cases h)⟩
  · intro h; cases h
  · intro h; cases h

theorem stateInv_step (valid : Nat → Bool) (max_nonce : Nat) (s : MineState) (i : Nat)
    (h : StateInv valid max_nonce s) : StateInv valid max_nonce (stepState valid s i) := by
  obtain ⟨hworkers, hresult, hfound⟩ := h
  rw [stepState]
  cases hget : s.workers[i]? with
  | none => exact ⟨hworkers, hresult, hfound⟩
  | some w =>
      obtain ⟨hilt, hieq⟩ := List.getElem?_eq_some.mp hget
      have hwmem : w ∈ s.workers := hieq ▸ List.getElem_mem hilt
      obtain ⟨hend, htest, hwrite⟩ := hworkers w hwmem
      cases hpc : w.pc with
      | check =>
          simp only [stepWorker, hpc]
          by_cases hlt : w.nonce < w.endN
          · rw [if_pos hlt]
            by_cases hf : s.found
            · rw [if_pos hf]
              refine ⟨?_, hresult, ?_⟩
              · intro w' hw'
                rcases List.mem_or_eq_of_mem_set hw' with hm | rfl
                · exact hworkers w' hm
                · exact ⟨hend, (fun hc => by cases hc), (fun v hc => by cases hc)⟩
              · intro hfd
                rcases hfound hfd with hl | ⟨j, v, w'', hj, hjw⟩
                · exact Or.inl hl
                · by_cases hij : i = j
                  · subst hij
                    rw [hget] at hj
                    cases hj
                    rw [hpc] at hjw
                    cases hjw
                  · exact Or.inr ⟨j, v, w'', by rw [List.getElem?_set_ne hij]; exact hj, hjw⟩
            · rw [if_neg hf]
              refine ⟨?_, hresult, ?_⟩
              · intro w' hw'
                rcases List.mem_or_eq_of_mem_set hw' with hm | rfl
                · exact hworkers w' hm
                · exact ⟨hend, (fun _ => hlt), (fun v hc => by cases hc)⟩
              · intro hfd; rw [hfd] at hf; cases hf rfl
          · rw [if_neg hlt]
            refine ⟨?_, hresult, ?_⟩
            · intro w' hw'
              rcases List.mem_or_eq_of_mem_set hw' with hm | rfl
              · exact hworkers w' hm
              · exact ⟨hend, (fun hc => by cases hc), (fun v hc => by cases hc)⟩
            · intro hfd
              rcases hfound hfd with hl | ⟨j, v, w'', hj, hjw⟩
              · exact Or.inl hl
              · by_cases hij : i = j
                · subst hij
                  rw [hget] at hj
                  cases hj
                  rw [hpc] at hjw
                  cases hjw
                · exact Or.inr ⟨j, v, w'', by rw [List.getElem?_set_ne hij]; exact hj, hjw⟩
      | test =>
          simp only [stepWorker, hpc]
          by_cases hv : valid w.nonce = true
          · rw [if_pos hv]
            refine ⟨?_, hresult, ?_⟩
            · intro w' hw'
              rcases List.mem_or_eq_of_mem_set hw' with hm | rfl
              · exact hworkers w' hm
              · refine ⟨hend, (fun hc => by cases hc), fun v hc => ?_⟩
                cases hc
                exact ⟨hv, Nat.lt_of_lt_of_le (htest hpc) hend⟩
            · intro _
              exact Or.inr ⟨i, w.nonce, { w with pc := WPc.write w.nonce },
                List.getElem?_set_self hilt, rfl⟩
          · rw [if_neg hv]
            refine ⟨?_, hresult, ?_⟩
            · intro w' hw'
              rcases List.mem_or_eq_of_mem_set hw' with hm | rfl
              · exact hworkers w' hm
              · exact ⟨hend, (fun hc => by cases hc), (fun v hc => by cases hc)⟩
            · intro hfd
              rcases hfound hfd with hl | ⟨j, v, w'', hj, hjw⟩
              · exact Or.inl hl
              · by_cases hij : i = j
                · subst hij
                  rw [hget] at hj
                  cases hj
                  rw [hpc] at hjw
                  cases hjw
                · exact Or.inr ⟨j, v, w'', by rw [List.getElem?_set_ne hij]; exact hj, hjw⟩
      | write v =>
          simp only [stepWorker, hpc]
          obtain ⟨hv, hvlt⟩ := hwrite v hpc
          refine ⟨?_, ?_, ?_⟩
          · intro w' hw'
            rcases List.mem_or_eq_of_mem_set hw' with hm | rfl
            · exact hworkers w' hm
            · exact ⟨hend, (fun hc => by cases hc), (fun v' hc => by cases hc)⟩
          · intro _; exact ⟨hv, hvlt⟩
          · intro _; exact Or.inl (Nat.succ_le_succ (Nat.zero_le _))
      | done =>
          simp only [stepWorker, hpc]
          refine ⟨?_, hresult, ?_⟩
          · intro w' hw'
            rcases List.mem_or_eq_of_mem_set hw' with hm | rfl
            · exact hworkers w' hm
            · exact ⟨hend, htest, hwrite⟩
          · intro hfd
            rcases hfound hfd with hl | ⟨j, v, w'', hj, hjw⟩
            · exact Or.inl hl
            · by_cases hij : i = j
              · subst hij
                rw [hget] at hj
                cases hj
                rw [hpc] at hjw
                cases hjw
              · exact Or.inr ⟨j, v, w'', by rw [List.getElem?_set_ne hij]; exact hj, hjw⟩

theorem stateInv_run (valid : Nat → Bool) (max_nonce : Nat) :
    ∀ (sched : List Nat) (s : MineState),
      StateInv valid max_nonce s → StateInv valid max_nonce (runSched valid sched s) := by
  intro sched
  induction sched with
  | nil => intro s h; exact h
  | cons i rest ih => intro s h; exact ih _ (stateInv_step valid max_nonce s i h)

/-! ## C3: any returned nonce re-verifies -/

/-- C3: for both CPU backends, under the stated preconditions, a `some nonce`
result satisfies `nonce < maxNonce` and re-verifies through
`pow::verify_nonce` alone.  For `CpuMiner` this holds in every interleaving
that runs all workers to completion (rayon joins them before the result is
read); for `SimpleCpuMiner` it holds of the sequential scan. -/
theorem backend_some_implies_valid (challenge miner_pubkey : List Nat)
    (block_number target max_nonce threads n : Nat) (sched : List Nat)
    (_hmax : 0 < max_nonce) (_htarget : target ≤ 2 ^ 128 - 1) :
    (allDone (cpuMiner_run (fun k => verify_nonce challenge miner_pubkey k block_number target)
        threads max_nonce sched) = true →
      mineOutcome (cpuMiner_run (fun k => verify_nonce challenge miner_pubkey k block_number
        target) threads max_nonce sched) = some n →
      n < max_nonce ∧ verify_nonce challenge miner_pubkey n block_number target = true) ∧
    (simpleCpuMiner_mine challenge miner_pubkey block_number target max_nonce = some n →
      n < max_nonce ∧ verify_nonce challenge miner_pubkey n block_number target = true) := by
  constructor
  · intro hdone hsome
    have hinv := stateInv_run (fun k => verify_nonce challenge miner_pubkey k block_number target)
      max_nonce sched (initState max_nonce threads)
      (stateInv_init _ max_nonce threads)
    rw [cpuMiner_run] at hsome hdone
    rw [mineOutcome] at hsome
    set final := runSched (fun k => verify_nonce challenge miner_pubkey k block_number target)
      sched (initState max_nonce threads) with hfinal
    by_cases hf : final.found
    · rw [if_pos hf] at hsome
      cases hsome
      rcases hinv.2.2 hf with hw | ⟨j, v, w, hj, hw⟩
      · have := hinv.2.1 hw
        exact ⟨this.2, this.1⟩
      · obtain ⟨hjlt, hjeq⟩ := List.getElem?_eq_some.mp hj
        have hmem : w ∈ final.workers := hjeq ▸ List.getElem_mem hjlt
        have := List.all_eq_true.mp hdone w hmem
        rw [hw] at this
        cases of_decide_eq_true this
    · rw [if_neg hf] at hsome
      cases hsome
  · intro h
    have := (simpleCpuMiner_mine_least challenge miner_pubkey block_number target max_nonce n).1.mp h
    exact ⟨this.1, this.2.1⟩

/-- Witness for C3: one thread, one candidate, permissive target; the run
completes, returns nonce 0, and the instantiated postconditions hold. -/
theorem backend_some_implies_valid_witness :
    0 < 1 ∧ 340282366920938463463374607431768211455 ≤ 2 ^ 128 - 1 ∧
    ((allDone (cpuMiner_run (fun k => verify_nonce testChallenge testPubkey k 100
        340282366920938463463374607431768211455) 1 1 [0, 0, 0]) = true →
      mineOutcome (cpuMiner_run (fun k => verify_nonce testChallenge testPubkey k 100
        340282366920938463463374607431768211455) 1 1 [0, 0, 0]) = some 0 →
      0 < 1 ∧ verify_nonce testChallenge testPubkey 0 100
        340282366920938463463374607431768211455 = true) ∧
    (simpleCpuMiner_mine testChallenge testPubkey 100
        340282366920938463463374607431768211455 1 = some 0 →
      0 < 1 ∧ verify_nonce testChallenge testPubkey 0 100
        340282366920938463463374607431768211455 = true)) :=
  ⟨by decide, by decide,
    backend_some_implies_valid testChallenge testPubkey 100
      340282366920938463463374607431768211455 1 1 0 [0, 0, 0] (by decide) (by decide)⟩

/-! ## C5: `maxNonce = 0` -/

/-- C5 counterexample: a `mine` call with `maxNonce = 0` is *not* reported as
a configuration error — `SimpleCpuMiner::mine` (whose return type has no error
channel at all) immediately produces the ordinary `none`, the very value a
genuine exhaustion of a nonempty range produces (here `maxNonce = 5` under the
never-satisfiable target 0), i.e. the case is silently defaulted to a normal
result. -/
theorem maxNonce_zero_yields_normal_none :
    simpleCpuMiner_mine testChallenge testPubkey 100 5 0 = none ∧
    simpleCpuMiner_mine testChallenge testPubkey 100 0 5 = none ∧
    simpleCpuMiner_mine testChallenge testPubkey 100 5 0 =
      simpleCpuMiner_mine testChallenge testPubkey 100 0 5 := by
  have h := simpleCpuMiner_mine_target_zero testChallenge testPubkey 100 5
  exact ⟨rfl, h, by rw [h]; rfl⟩

/-- Invariant of the `CpuMiner` machine at `max_nonce = 0`: every worker range
is empty, so no hash is ever evaluated and `found` can never rise. -/
def ZeroInv (s : MineState) : Prop :=
  s.found = false ∧ s.hashes = 0 ∧
    ∀ w ∈ s.workers, w.endN = 0 ∧ (w.pc = WPc.check ∨ w.pc = WPc.done)

theorem zeroInv_init (threads : Nat) : ZeroInv (initState 0 threads) := by
  refine ⟨rfl, rfl, ?_⟩
  intro w hw
  rw [initState] at hw
  simp only [List.mem_map, List.mem_range] at hw
  obtain ⟨i, hi, rfl⟩ := hw
  refine ⟨?_, Or.inl rfl⟩
  rw [initWorker, workerEnd, chunk_size]
  by_cases h : i = threads - 1
  · rw [if_pos h]
  · rw [if_neg h]
    simp [Nat.zero_div]

theorem zeroInv_step (valid : Nat → Bool) (s : MineState) (i : Nat)
    (h : ZeroInv s) : ZeroInv (stepState valid s i) := by
  obtain ⟨hf, hh, hws⟩ := h
  rw [stepState]
  cases hget : s.workers[i]? with
  | none => exact ⟨hf, hh, hws⟩
  | some w =>
      obtain ⟨hilt, hieq⟩ := List.getElem?_eq_some.mp hget
      have hwmem : w ∈ s.workers := hieq ▸ List.getElem_mem hilt
      obtain ⟨hend, hpcs⟩ := hws w hwmem
      rcases hpcs with hpc | hpc
      · simp only [stepWorker, hpc]
        rw [if_neg (by omega)]
        refine ⟨hf, hh, ?_⟩
        intro w' hw'
        rcases List.mem_or_eq_of_mem_set hw' with hm | rfl
        · exact hws w' hm
        · exact ⟨hend, Or.inr rfl⟩
      · simp only [stepWorker, hpc]
        refine ⟨hf, hh, ?_⟩
        intro w' hw'
        rcases List.mem_or_eq_of_mem_set hw' with hm | rfl
        · exact hws w' hm
        · exact ⟨hend, Or.inr hpc⟩

theorem zeroInv_run (valid : Nat → Bool) :
    ∀ (sched : List Nat) (s : MineState), ZeroInv s → ZeroInv (runSched valid sched s) := by
  intro sched
  induction sched with
  | nil => intro s h; exact h
  | cons i rest ih => intro s h; exact ih _ (zeroInv_step valid s i h)

/-- C5 amended: neither CPU backend reports `maxNonce = 0` as an error (the
`MinerBackend::mine` signature has no error channel): `SimpleCpuMiner::mine`
returns the normal `none` immediately, and `CpuMiner::mine` returns the normal
`none` under every interleaving, without evaluating a single hash. -/
theorem maxNonce_zero_returns_none (valid : Nat → Bool)
    (challenge miner_pubkey : List Nat) (block_number target threads : Nat)
    (sched : List Nat) :
    simpleCpuMiner_mine challenge miner_pubkey block_number target 0 = none ∧
    mineOutcome (cpuMiner_run valid threads 0 sched) = none ∧
    (cpuMiner_run valid threads 0 sched).hashes = 0 := by
  have h := zeroInv_run valid sched (initState 0 threads) (zeroInv_init threads)
  rw [cpuMiner_run]
  exact ⟨rfl, by rw [mineOutcome, h.1]; rfl, h.2.1⟩

/-! ## C7: the shared result slot -/

/-- C7 counterexample: in `CpuMiner::mine` the `found` flag is raised by a
plain store (not a compare-and-set) and the result slot is a mutex, so two
workers that both pass the `found` check before either stores can *both*
write the result slot.  Concretely: two workers, one candidate each, both
candidates valid under the all-permissive target; the interleaving lets both
workers load `found = false`, then both verify, store and write. -/
theorem cpu_result_slot_double_write :
    (cpuMiner_run (fun k => verify_nonce testChallenge testPubkey k 100
      340282366920938463463374607431768211455) 2 2 [0, 1, 0, 0, 1, 1]).writes = 2 := by
  decide

/-- Invariant of one OpenCL kernel launch: while `found` is still 0 nothing
has been written, and the result buffers are written at most once. -/
def LaunchInv (s : LaunchState) : Prop := (s.found = 0 → s.writes = 0) ∧ s.writes ≤ 1

theorem launchInv_step (valid : Nat → Bool) (start_nonce : Nat) (s : LaunchState) (i : Nat)
    (h : LaunchInv s) : LaunchInv (launchStep valid start_nonce s i) := by
  obtain ⟨h0, h1⟩ := h
  rw [launchStep]
  cases hget : s.lanes[i]? with
  | none => exact ⟨h0, h1⟩
  | some l =>
      cases hpc : l.pc with
      | start =>
          simp only [laneStep, hpc]
          by_cases hf : s.found ≠ 0
          · rw [if_pos hf]; exact ⟨h0, h1⟩
          · rw [if_neg hf]
            by_cases hv : valid (start_nonce + l.gid) = true
            · rw [if_pos hv]; exact ⟨h0, h1⟩
            · rw [if_neg hv]; exact ⟨h0, h1⟩
      | cas =>
          simp only [laneStep, hpc]
          by_cases hf : s.found = 0
          · rw [if_pos hf]
            have hz := h0 hf
            refine ⟨(fun hc => by simp at hc), ?_⟩
            show s.writes + 1 ≤ 1
            omega
          · rw [if_neg hf]; exact ⟨h0, h1⟩
      | done => simp only [laneStep, hpc]; exact ⟨h0, h1⟩

theorem launchInv_run (valid : Nat → Bool) (start_nonce : Nat) :
    ∀ (sched : List Nat) (s : LaunchState),
      LaunchInv s → LaunchInv (runLaunch valid start_nonce sched s) := by
  intro sched
  induction sched with
  | nil => intro s h; exact h
  | cons i rest ih => intro s h; exact ih _ (launchInv_step valid start_nonce s i h)

/-- C7 amended: the at-most-once guarantee holds for the OpenCL device kernel,
whose `atomic_cmpxchg(found, 0, 1)` lets only the first discovering lane write
the result buffers — in every interleaving of lane actions the result is
written at most once.  `CpuMiner::mine`, by contrast, guards its result slot
with a plain store plus mutex and can write it more than once (see the
counterexample), though each write holds a valid nonce. -/
theorem kernel_result_written_at_most_once (valid : Nat → Bool)
    (start_nonce numLanes : Nat) (sched : List Nat) :
    (runLaunch valid start_nonce sched (initLaunch numLanes)).writes ≤ 1 :=
  (launchInv_run valid start_nonce sched (initLaunch numLanes)
    ⟨fun _ => rfl, by rw [initLaunch]; exact Nat.zero_le _⟩).2

/-! ## C1: do the backends compute the same digest? -/

/-- `mine_batch` writes the challenge, the 8-byte nonce and the 8-byte block
number into disjoint slices of its 48-byte buffer, so the hashed message is
exactly their concatenation. -/
theorem mineBatchMessage_eq (challenge : List Nat) (block_number nonce : Nat)
    (h : challenge.length = 32) :
    mineBatchMessage challenge block_number nonce =
      challenge ++ toLeBytes 8 nonce ++ toLeBytes 8 block_number := by
  rw [mineBatchMessage]
  have h1 : setSlice (List.replicate 48 0) 0 challenge = challenge ++ List.replicate 16 0 := by
    rw [setSlice, h]
    simp [List.drop_replicate]
  rw [h1]
  have h2 : setSlice (challenge ++ List.replicate 16 0) 40 (toLeBytes 8 block_number) =
      (challenge ++ List.replicate 8 0) ++ toLeBytes 8 block_number := by
    rw [setSlice, length_toLeBytes]
    have ht : List.take 40 (challenge ++ List.replicate 16 0) =
        challenge ++ List.replicate 8 0 := by
      have h40 : (40 : Nat) = challenge.length + 8 := by omega
      rw [h40, List.take_append]
      simp [List.take_replicate]
    have hd : List.drop 48 (challenge ++ List.replicate 16 0) = [] := by
      have h48 : (48 : Nat) = challenge.length + 16 := by omega
      rw [h48, List.drop_append]
      simp [List.drop_replicate]
    rw [ht, hd, List.append_nil]
  rw [h2, setSlice, length_toLeBytes]
  have ht : List.take 32 ((challenge ++ List.replicate 8 0) ++ toLeBytes 8 block_number) =
      challenge := by
    rw [List.take_append_of_le_length (by simp [h]),
      List.take_append_of_le_length (by omega),
      List.take_of_length_le (by omega)]
  have hd : List.drop 40 ((challenge ++ List.replicate 8 0) ++ toLeBytes 8 block_number) =
      toLeBytes 8 block_number := by
    have h40 : (40 : Nat) = (challenge ++ List.replicate 8 0).length := by simp [h]
    rw [h40, List.drop_left]
  rw [ht, hd, List.append_assoc]

/-- The 24 bytes SHA-256 padding appends to a 40-byte message. -/
def padSuffix40 : List Nat := 128 :: (List.replicate 15 0 ++ toBeBytes 8 320)

theorem padMessage_len40 (msg : List Nat) (h : msg.length = 40) :
    padMessage msg = msg ++ padSuffix40 := by
  rw [padMessage, h]
  rfl

theorem toBlocks_len64 (l : List Nat) (h : l.length = 64) : toBlocks l = [l] := by
  rw [toBlocks, h]
  cases l with
  | nil => simp at h
  | cons a t =>
      show ((a :: t).take 64) :: toBlocksAux 63 ((a :: t).drop 64) = [a :: t]
      rw [List.take_of_length_le (by omega), List.drop_eq_nil_of_le (by omega)]
      rfl

theorem blockWords_pad40 (data : List Nat) (h : data.length = 40) :
    blockWords (data ++ padSuffix40) = kernelBlockWords data := by
  have hget : ∀ n : Nat, n < 40 → (data ++ padSuffix40).getD n 0 = data.getD n 0 := by
    intro n hn
    exact List.getD_append _ _ _ _ (by omega)
  have hgetR : ∀ n : Nat, 40 ≤ n →
      (data ++ padSuffix40).getD n 0 = padSuffix40.getD (n - 40) 0 := by
    intro n hn
    rw [List.getD_append_right _ _ _ _ (by omega), h]
  have hbe : ∀ i : Nat, i < 10 → beWord (data ++ padSuffix40) i = beWord data i := by
    intro i hi
    rw [beWord, beWord, hget _ (by omega), hget _ (by omega), hget _ (by omega),
      hget _ (by omega)]
  have hb10 : beWord (data ++ padSuffix40) 10 = 2147483648 := by
    rw [beWord, hgetR _ (by omega), hgetR _ (by omega), hgetR _ (by omega), hgetR _ (by omega)]
    rfl
  have hb11 : beWord (data ++ padSuffix40) 11 = 0 := by
    rw [beWord, hgetR _ (by omega), hgetR _ (by omega), hgetR _ (by omega), hgetR _ (by omega)]
    rfl
  have hb12 : beWord (data ++ padSuffix40) 12 = 0 := by
    rw [beWord, hgetR _ (by omega), hgetR _ (by omega), hgetR _ (by omega), hgetR _ (by omega)]
    rfl
  have hb13 : beWord (data ++ padSuffix40) 13 = 0 := by
    rw [beWord, hgetR _ (by omega), hgetR _ (by omega), hgetR _ (by omega), hgetR _ (by omega)]
    rfl
  have hb14 : beWord (data ++ padSuffix40) 14 = 0 := by
    rw [beWord, hgetR _ (by omega), hgetR _ (by omega), hgetR _ (by omega), hgetR _ (by omega)]
    rfl
  have hb15 : beWord (data ++ padSuffix40) 15 = 320 := by
    rw [beWord, hgetR _ (by omega), hgetR _ (by omega), hgetR _ (by omega), hgetR _ (by omega)]
    rfl
  rw [blockWords, kernelBlockWords,
    show List.range 16 = [0, 1, 2, 3, 4, 5, 6, 7, 8, 9, 10, 11, 12, 13, 14, 15] from rfl,
    show List.range 10 = [0, 1, 2, 3, 4, 5, 6, 7, 8, 9] from rfl]
  simp only [List.map]
  rw [hbe 0 (by omega), hbe 1 (by omega), hbe 2 (by omega), hbe 3 (by omega),
    hbe 4 (by omega), hbe 5 (by omega), hbe 6 (by omega), hbe 7 (by omega),
    hbe 8 (by omega), hbe 9 (by omega), hb10, hb11, hb12, hb13, hb14, hb15]
  rfl

/-- The OpenCL kernel's hand-padded `sha256_40bytes` agrees with generic
SHA-256 on every 40-byte message. -/
theorem sha256_40bytes_eq (data : List Nat) (h : data.length = 40) :
    sha256_40bytes data = sha256 data := by
  have hlen : (data ++ padSuffix40).length = 64 := by
    rw [List.length_append, h]
    rfl
  rw [sha256, padMessage_len40 data h, toBlocks_len64 _ hlen]
  simp only [List.foldl]
  rw [blockWords_pad40 data h]
  rfl

/-- C1 counterexample: at the crate's own test vector
(`challenge = [0; 32]`, `miner_pubkey = [1; 32]`, `nonce = 12345`,
`block_number = 100`) both accelerated paths disagree with
`pow::compute_hash`: `mine_batch` hashes a 48-byte identity-free message with
a 64-bit nonce, the OpenCL kernel a 40-byte message without identity or block
number, so all three digests differ. -/
theorem backend_digest_mismatch :
    mineBatchDigest testChallenge 100 12345 ≠ compute_hash testChallenge testPubkey 12345 100 ∧
    kernelDigest testChallenge 12345 ≠ compute_hash testChallenge testPubkey 12345 100 := by
  constructor
  · decide
  · decide

/-- C1 amended: the backends do *not* compute the same digest.  Per candidate,
`mine_batch` computes SHA-256 of the 48-byte message
`challenge ‖ nonce (8 bytes LE) ‖ blockNumber (8 bytes LE)` and the OpenCL
kernel computes SHA-256 of the 40-byte message `challenge ‖ nonce (8 bytes
LE)` — both omit the 32-byte miner identity and truncate the nonce to 64 bits,
and the kernel also omits the block number — whereas `pow::compute_hash`
hashes the full 88-byte message; at the crate's own test vector the three
digests are pairwise distinct. -/
theorem backend_digests_characterized (challenge data : List Nat) (nonce block_number : Nat)
    (hc : challenge.length = 32) (hd : data.length = 40) :
    mineBatchDigest challenge block_number nonce =
      sha256 (challenge ++ toLeBytes 8 nonce ++ toLeBytes 8 block_number) ∧
    sha256_40bytes data = sha256 data ∧
    kernelDigest challenge nonce = sha256 (challenge ++ toLeBytes 8 nonce) ∧
    mineBatchDigest testChallenge 100 12345 ≠ compute_hash testChallenge testPubkey 12345 100 ∧
    kernelDigest testChallenge 12345 ≠ compute_hash testChallenge testPubkey 12345 100 ∧
    mineBatchDigest testChallenge 100 12345 ≠ kernelDigest testChallenge 12345 := by
  refine ⟨?_, sha256_40bytes_eq data hd, ?_, by decide, by decide, by decide⟩
  · rw [mineBatchDigest, mineBatchMessage_eq challenge block_number nonce hc]
  · rw [kernelDigest, kernelMessage]
    exact sha256_40bytes_eq _ (by rw [List.length_append, hc]; rfl)

/-- Witness for C1 at the crate's test vector. -/
theorem backend_digests_characterized_witness :
    (List.replicate 32 (0 : Nat)).length = 32 ∧
    (kernelMessage testChallenge 12345).length = 40 ∧
    (mineBatchDigest testChallenge 100 12345 =
        sha256 (testChallenge ++ toLeBytes 8 12345 ++ toLeBytes 8 100) ∧
      sha256_40bytes (kernelMessage testChallenge 12345) =
        sha256 (kernelMessage testChallenge 12345) ∧
      kernelDigest testChallenge 12345 = sha256 (testChallenge ++ toLeBytes 8 12345) ∧
      mineBatchDigest testChallenge 100 12345 ≠
        compute_hash testChallenge testPubkey 12345 100 ∧
      kernelDigest testChallenge 12345 ≠ compute_hash testChallenge testPubkey 12345 100 ∧
      mineBatchDigest testChallenge 100 12345 ≠ kernelDigest testChallenge 12345) :=
  ⟨by decide, by decide,
    backend_digests_characterized testChallenge (kernelMessage testChallenge 12345) 12345 100
      (by decide) (by decide)⟩

end PoW
